import Mathlib

/-!
# hep_timer.c — interrupt handlers of the sensor signal generator

A shallow embedding of `src/hep_timer.c`.  Every interrupt service routine is a
pure function on an explicit machine state.  C integer widths are those of
avr-gcc: `unsigned char` is 8 bits, `unsigned int` 16 bits and
`unsigned long int` 32 bits; they are modelled by `Nat` with an explicit
reduction wherever the C operation can wrap.

Writing a value to a `PINx` register of this AVR family toggles the bits of the
`PORTx` output latch selected by the value (the source says so itself: the line
`PINA = (1<<VSS_OUT);` replaces the commented `PORTA ^= (1<<VSS_OUT);`).  The
state keeps both the last value written to `PINx` and the resulting latch.
-/

namespace HepTimer

/-! ## Constants of the source -/

def MAP_OUT : Nat := 7
def VSS_OUT : Nat := 5
def HEP1_OUT : Nat := 1
def HEP2_OUT : Nat := 3
def TPS_OUT : Nat := 2
def MAP_IN : Nat := 4
def HEP_IN : Nat := 1
def VSS_IN : Nat := 2
def TPS_IN : Nat := 3
def START_IN : Nat := 6
def BARNESS_IN : Nat := 0
def BARO_IN : Nat := 0

def MAP_IDX : Nat := 0
def HEP_IDX : Nat := 1
def VSS_IDX : Nat := 2
def TPS_IDX : Nat := 3
def NUM_ADC : Nat := 4

def BARO_DC_TWO_BAR : Nat := 0x7C
def BARO_DC_THREE_BAR : Nat := 0x52
def MIN_TPS : Nat := 0x25
def MAX_TPS : Nat := 0xff - MIN_TPS
def OFFSET : Nat := 20
def DEBOUNCE_TICKS : Nat := 10000
def BASE_VSS_TICKS : Nat := 4

/-- Width of `unsigned char`. -/
def UCHAR : Nat := 2 ^ 8
/-- Width of `unsigned int` (avr-gcc). -/
def UINT : Nat := 2 ^ 16
/-- Width of `unsigned long int` (avr-gcc). -/
def ULONG : Nat := 2 ^ 32

/-- Bit numbers that the source takes from the device header `avr/io.h`, which
is not part of the repository.  They are a parameter of the handlers that use
them. -/
structure IoBits where
  CS11 : Nat
  WGM12 : Nat
  MUX0 : Nat
  MUX1 : Nat
  MUX2 : Nat
  REFS0 : Nat
  REFS1 : Nat
  ADEN : Nat
  ADSC : Nat
  ADIE : Nat
  ADPS0 : Nat
  ADPS1 : Nat
  ADPS2 : Nat
  deriving DecidableEq, Repr

/-- Bit numbers of the ATtiny24/44/84 data sheet, used for concrete runs. -/
def attiny84 : IoBits :=
  { CS11 := 1, WGM12 := 3, MUX0 := 0, MUX1 := 1, MUX2 := 2, REFS0 := 6, REFS1 := 7,
    ADEN := 7, ADSC := 6, ADIE := 3, ADPS0 := 0, ADPS1 := 1, ADPS2 := 2 }

/-! ## Tables of the source -/

def differences : List Nat :=
  [OFFSET, 150 - OFFSET, OFFSET, 250 - (150 + OFFSET),
   OFFSET, 400 - (250 + OFFSET), OFFSET, 29, 42, 29 - OFFSET,
   OFFSET, 650 - (500 + OFFSET), OFFSET, 750 - (650 + OFFSET),
   OFFSET, 900 - (750 + OFFSET), OFFSET, 29 - OFFSET, 42, 29]

def pin_to_toggle : List Nat :=
  [0x02, 0x08, 0x02, 0x08, 0x02, 0x08, 0x02, 0x02, 0x02, 0x08,
   0x02, 0x08, 0x02, 0x08, 0x02, 0x08, 0x02, 0x08, 0x08, 0x08]

/-- Initializer of `adc_outputs`. -/
def adc_outputs_init : List Nat := [BARO_DC_THREE_BAR, 0x00, 0x00, MIN_TPS]

def adc_inputs (io : IoBits) : List Nat :=
  [(0 <<< io.MUX0) ||| (0 <<< io.MUX1) ||| (1 <<< io.MUX2),
   (1 <<< io.MUX0) ||| (0 <<< io.MUX1) ||| (0 <<< io.MUX2),
   (0 <<< io.MUX0) ||| (1 <<< io.MUX1) ||| (0 <<< io.MUX2),
   (1 <<< io.MUX0) ||| (1 <<< io.MUX1) ||| (0 <<< io.MUX2)]

/-! ## Machine state -/

/-- The variables of the source and the device registers its handlers touch. -/
structure State where
  adc_outputs : List Nat
  reading_baro : Nat
  barodc : Nat
  ignore_bounces : Nat
  vss_overflows_left : Nat
  hep_position : Nat
  adc_position : Nat
  PORTA : Nat
  PORTB : Nat
  PINA : Nat
  PINB : Nat
  OCR1A : Nat
  OCR0A : Nat
  OCR0B : Nat
  TCCR1B : Nat
  ADMUX : Nat
  ADCSRA : Nat
  deriving DecidableEq, Repr

/-- Values are inside the C types of their variables. -/
def State.WF (st : State) : Prop :=
  st.adc_outputs.length = NUM_ADC ∧ (∀ x ∈ st.adc_outputs, x < UCHAR) ∧
  st.ignore_bounces < ULONG ∧ st.vss_overflows_left < ULONG ∧
  st.hep_position < 20 ∧ st.adc_position < NUM_ADC

/-- The C pre- or post-decrement of an `unsigned long int`. -/
def decULong (x : Nat) : Nat := (x + ULONG - 1) % ULONG

/-! ## Interrupt service routines -/

/-- The handler `ISR(TIM1_COMPA_vect)`, lines 148-165. -/
def TIM1_COMPA_vect (st : State) : State :=
  let mask := pin_to_toggle.getD st.hep_position 0
  let p1 := (st.hep_position + 1) % UCHAR
  let p2 := if p1 ≥ 20 then 0 else p1
  { st with
    PINB := mask
    PORTB := st.PORTB ^^^ mask
    hep_position := p2
    OCR1A := ((5 + st.adc_outputs.getD HEP_IDX 0) * differences.getD p2 0) % UINT }

/-- The handler `ISR(TIM0_OVF_vect)`, lines 170-209. -/
def TIM0_OVF_vect (st : State) : State :=
  let tps := st.adc_outputs.getD TPS_IDX 0
  let ocr0a := if tps > MAX_TPS then MAX_TPS else if tps < MIN_TPS then MIN_TPS else tps
  let ocr0b := if st.reading_baro ≠ 0 then st.barodc else st.adc_outputs.getD MAP_IDX 0
  let ib := if st.ignore_bounces ≠ 0 then decULong st.ignore_bounces else st.ignore_bounces
  let v := decULong st.vss_overflows_left
  if v = 0 then
    { st with
      OCR0A := ocr0a
      OCR0B := ocr0b
      ignore_bounces := ib
      PINA := 1 <<< VSS_OUT
      PORTA := st.PORTA ^^^ (1 <<< VSS_OUT)
      vss_overflows_left := (5 + st.adc_outputs.getD VSS_IDX 0) % ULONG }
  else
    { st with
      OCR0A := ocr0a
      OCR0B := ocr0b
      ignore_bounces := ib
      vss_overflows_left := v }

/-- The handler `ISR(ADC_vect)`, lines 215-236; `adch` is the value read from the
8-bit result register `ADCH`. -/
def ADC_vect (io : IoBits) (adch : Nat) (st : State) : State :=
  let outs := st.adc_outputs.set st.adc_position (adch % UCHAR)
  let p1 := (st.adc_position + 1) % UCHAR
  let p2 := if p1 ≥ NUM_ADC then 0 else p1
  let admux := ((0 <<< io.REFS0) ||| (0 <<< io.REFS1) ||| (adc_inputs io).getD p2 0) % UCHAR
  { st with
    adc_outputs := outs
    adc_position := p2
    ADMUX := admux
    ADCSRA := (st.ADCSRA ||| (1 <<< io.ADSC)) % UCHAR }

/-- The handler `ISR(PCINT0_vect)`, lines 238-251. -/
def PCINT0_vect (io : IoBits) (st : State) : State :=
  if st.ignore_bounces = 0 then
    { st with
      TCCR1B := (st.TCCR1B ^^^ (1 <<< io.CS11)) % UCHAR
      ignore_bounces := DEBOUNCE_TICKS }
  else st

/-- The handler `ISR(PCINT1_vect)`, lines 254-260. -/
def PCINT1_vect (st : State) : State :=
  { st with reading_baro := st.reading_baro ^^^ 1 }

/-- The part of `main` that runs before `sei()`, restricted to the variables and
registers of `State`: the static initializers and the assignments of lines
275-338.  `PORTA` is read back at line 335 as the latch written at line 275. -/
def main_init (io : IoBits) : State :=
  let porta := (1 <<< START_IN) ||| (0 <<< BARNESS_IN) ||| (0 <<< VSS_OUT)
  { adc_outputs := adc_outputs_init
    reading_baro := 0
    barodc := if porta &&& (1 <<< BARNESS_IN) ≠ 0 then BARO_DC_THREE_BAR else BARO_DC_TWO_BAR
    ignore_bounces := 0
    vss_overflows_left := BASE_VSS_TICKS
    hep_position := 0
    adc_position := 0
    PORTA := porta
    PORTB := (0 <<< HEP1_OUT) ||| (1 <<< HEP2_OUT) ||| (0 <<< BARO_IN)
    PINA := 0
    PINB := 0
    OCR1A := ((5 + adc_outputs_init.getD HEP_IN 0) * differences.getD 0 0) % UINT
    OCR0A := MIN_TPS
    OCR0B := BARO_DC_THREE_BAR
    TCCR1B := (1 <<< io.WGM12) % UCHAR
    ADMUX := ((0 <<< io.REFS0) ||| (0 <<< io.REFS1) ||| (adc_inputs io).getD 0 0) % UCHAR
    ADCSRA := ((1 <<< io.ADEN) ||| (1 <<< io.ADSC) ||| (1 <<< io.ADIE) |||
      (1 <<< io.ADPS2) ||| (1 <<< io.ADPS1) ||| (0 <<< io.ADPS0)) % UCHAR }

/-! ## Interrupt sequences -/

/-- One interrupt request; a completed conversion carries the content of `ADCH`. -/
inductive Irq where
  | TIM1_COMPA
  | TIM0_OVF
  | ADC (adch : Nat)
  | PCINT0
  | PCINT1
  deriving DecidableEq, Repr

/-- Run the handler of one interrupt request. -/
def fire (io : IoBits) (st : State) : Irq → State
  | .TIM1_COMPA => TIM1_COMPA_vect st
  | .TIM0_OVF => TIM0_OVF_vect st
  | .ADC adch => ADC_vect io adch st
  | .PCINT0 => PCINT0_vect io st
  | .PCINT1 => PCINT1_vect st

/-- Run the handlers of a sequence of interrupt requests, first one first. -/
def run (io : IoBits) (st : State) (es : List Irq) : State :=
  es.foldl (fire io) st

/-- Number of timer-0 overflow interrupts in a sequence. -/
def countTim0 (es : List Irq) : Nat :=
  es.count Irq.TIM0_OVF

/-- Whether one firing of the timer-0 overflow handler from `st` changes the level
of the VSS pin of `PORTA`. -/
def vssToggled (st : State) : Bool :=
  (TIM0_OVF_vect st).PORTA.testBit VSS_OUT != st.PORTA.testBit VSS_OUT

/-- For n successive firings of the timer-0 overflow handler, whether each of
them changes the level of the VSS pin. -/
def vssToggles (st : State) : Nat → List Bool
  | 0 => []
  | n + 1 => vssToggled st :: vssToggles (TIM0_OVF_vect st) n

/-- Indices of `adc_outputs` written by successive firings of the ADC-complete
handler, one firing for each value of `ADCH` in the list. -/
def adcIndices (io : IoBits) (st : State) : List Nat → List Nat
  | [] => []
  | a :: as => st.adc_position :: adcIndices io (ADC_vect io a st) as

/-- Successive firings of the ADC-complete handler, one for each value of `ADCH`
in the list. -/
def adcRun (io : IoBits) (st : State) (samples : List Nat) : State :=
  samples.foldl (fun s a => ADC_vect io a s) st

/-- Table indices used by n successive firings of the timer-1 compare handler. -/
def hepIndices (st : State) : Nat → List Nat
  | 0 => []
  | n + 1 => st.hep_position :: hepIndices (TIM1_COMPA_vect st) n

/-- Delays installed in `OCR1A` by n successive firings of the timer-1 compare
handler. -/
def hepDelays (st : State) : Nat → List Nat
  | 0 => []
  | n + 1 => (TIM1_COMPA_vect st).OCR1A :: hepDelays (TIM1_COMPA_vect st) n

/-- Masks written to `PINB` by n successive firings of the timer-1 compare
handler. -/
def hepMasks (st : State) : Nat → List Nat
  | 0 => []
  | n + 1 => (TIM1_COMPA_vect st).PINB :: hepMasks (TIM1_COMPA_vect st) n

/-- The value a read of the `PORTA` register returns: the output latch.  The
levels `pina` of the port pins are not part of it; they are what a read of
`PINA` returns. -/
def read_PORTA (latch _pina : Nat) : Nat := latch

/-- The function `main` up to `sei()`, run while the pins of port A are at the
levels `pina`.  Lines 335-338 choose `barodc` from a read of `PORTA`. -/
def main (io : IoBits) (pina : Nat) : State :=
  { main_init io with
    barodc :=
      if read_PORTA (main_init io).PORTA pina &&& (1 <<< BARNESS_IN) ≠ 0 then BARO_DC_THREE_BAR
      else BARO_DC_TWO_BAR }

/-- The table of line 91, which the source keeps in a comment together with the
handler that uses it. -/
def ch_to_toggle : List Nat :=
  [1, 0, 1, 0, 1, 0, 1, 1, 1, 0, 1, 0, 1, 0, 1, 0, 1, 0, 0, 0]

/-- The alternate handler `ISR(TIM1_COMPA_vect)` of lines 122-141, which the
source keeps in a comment: it toggles by a read-modify-write of `PORTB` and wraps
the position with `%= 20`. -/
def TIM1_COMPA_vect_alt (st : State) : State :=
  let ch := ch_to_toggle.getD st.hep_position 0
  let p1 := (st.hep_position + 1) % UCHAR
  let portb :=
    if ch ≠ 0 then (st.PORTB ^^^ (1 <<< HEP1_OUT)) % UCHAR
    else (st.PORTB ^^^ (1 <<< HEP2_OUT)) % UCHAR
  let p2 := p1 % 20
  { st with
    PORTB := portb
    hep_position := p2
    OCR1A := ((5 + st.adc_outputs.getD HEP_IDX 0) * differences.getD p2 0) % UINT }

/-! ## Helper lemmas -/

theorem differences_getD_le (i : Nat) : differences.getD i 0 ≤ 130 := by
  by_cases h : i < 20
  · interval_cases i <;> decide
  · have : differences.length ≤ i := by simp [differences]; omega
    rw [List.getD_eq_default _ _ this]
    omega

theorem tim1_adc_outputs (st : State) :
    (TIM1_COMPA_vect st).adc_outputs = st.adc_outputs := rfl

theorem tim1_hep_position (st : State) (h : st.hep_position < 20) :
    (TIM1_COMPA_vect st).hep_position = (st.hep_position + 1) % 20 := by
  simp only [TIM1_COMPA_vect, UCHAR]
  split <;> omega

theorem delay_lt_uint (s i : Nat) (hs : s < 256) :
    (5 + s) * differences.getD i 0 < UINT := by
  have hd := differences_getD_le i
  simp only [UINT]
  calc (5 + s) * differences.getD i 0 ≤ 260 * 130 := Nat.mul_le_mul (by omega) hd
    _ < 2 ^ 16 := by norm_num

theorem tim1_OCR1A (st : State) (h : st.hep_position < 20)
    (hs : st.adc_outputs.getD HEP_IDX 0 < 256) :
    (TIM1_COMPA_vect st).OCR1A =
      (5 + st.adc_outputs.getD HEP_IDX 0) * differences.getD ((st.hep_position + 1) % 20) 0 := by
  have hpos := tim1_hep_position st h
  simp only [TIM1_COMPA_vect] at hpos ⊢
  rw [hpos]
  exact Nat.mod_eq_of_lt (delay_lt_uint _ _ hs)

theorem tim1_iterate_adc_outputs (st : State) (k : Nat) :
    (TIM1_COMPA_vect^[k] st).adc_outputs = st.adc_outputs := by
  induction k generalizing st with
  | zero => rfl
  | succ k ih => rw [Function.iterate_succ_apply, ih, tim1_adc_outputs]

theorem tim1_iterate_hep_position (st : State) (k : Nat) (h : st.hep_position < 20) :
    (TIM1_COMPA_vect^[k] st).hep_position = (st.hep_position + k) % 20 := by
  induction k generalizing st with
  | zero => simpa using (Nat.mod_eq_of_lt h).symm
  | succ k ih =>
    rw [Function.iterate_succ_apply, ih _ (by rw [tim1_hep_position st h]; omega),
      tim1_hep_position st h]
    omega

theorem hepIndices_eq (st : State) (n : Nat) (h : st.hep_position < 20) :
    hepIndices st n = (List.range n).map (fun k => (st.hep_position + k) % 20) := by
  induction n generalizing st with
  | zero => rfl
  | succ n ih =>
    have h1 : (TIM1_COMPA_vect st).hep_position < 20 := by
      rw [tim1_hep_position st h]; omega
    rw [hepIndices, ih _ h1, tim1_hep_position st h, List.range_succ_eq_map, List.map_cons,
      List.map_map]
    congr 1
    · simp [Nat.mod_eq_of_lt h]
    · apply List.map_congr_left
      intro k _
      simp only [Function.comp, Nat.succ_eq_add_one]
      omega

theorem hepDelays_eq (st : State) (n : Nat) (h : st.hep_position < 20)
    (hs : st.adc_outputs.getD HEP_IDX 0 < 256) :
    hepDelays st n = (List.range n).map (fun k =>
      (5 + st.adc_outputs.getD HEP_IDX 0) * differences.getD ((st.hep_position + k + 1) % 20) 0) := by
  induction n generalizing st with
  | zero => rfl
  | succ n ih =>
    have h1 : (TIM1_COMPA_vect st).hep_position < 20 := by
      rw [tim1_hep_position st h]; omega
    rw [hepDelays, ih _ h1 (by rw [tim1_adc_outputs]; exact hs), tim1_OCR1A st h hs,
      tim1_hep_position st h, tim1_adc_outputs, List.range_succ_eq_map, List.map_cons,
      List.map_map]
    congr 1
    apply List.map_congr_left
    intro k _
    simp only [Function.comp, Nat.succ_eq_add_one]
    congr 2
    omega

theorem differences_cycle_sum (p : Nat) (hp : p < 20) :
    ((List.range 20).map (fun k => differences.getD ((p + k + 1) % 20) 0)).sum = 1000 := by
  interval_cases p <;> decide

theorem testBit_xor_one_shiftLeft (x c j : Nat) :
    (x ^^^ (1 <<< c)).testBit j = (x.testBit j ^^ decide (c = j)) := by
  rw [Nat.testBit_xor, Nat.one_shiftLeft, Nat.testBit_two_pow]

theorem tim0_OCR0A (st : State) :
    (TIM0_OVF_vect st).OCR0A =
      if st.adc_outputs.getD TPS_IDX 0 > MAX_TPS then MAX_TPS
      else if st.adc_outputs.getD TPS_IDX 0 < MIN_TPS then MIN_TPS
      else st.adc_outputs.getD TPS_IDX 0 := by
  simp only [TIM0_OVF_vect]
  split <;> rfl

theorem tim0_adc_outputs (st : State) :
    (TIM0_OVF_vect st).adc_outputs = st.adc_outputs := by
  simp only [TIM0_OVF_vect]
  split <;> rfl

theorem decULong_of_pos (x : Nat) (h0 : 0 < x) (h : x < ULONG) : decULong x = x - 1 := by
  simp only [decULong, ULONG] at *
  omega

theorem decULong_eq_zero (x : Nat) (h : x < ULONG) : decULong x = 0 ↔ x = 1 := by
  simp only [decULong, ULONG] at *
  omega

theorem tim0_reload (st : State) (h : decULong st.vss_overflows_left = 0) :
    (TIM0_OVF_vect st).vss_overflows_left = (5 + st.adc_outputs.getD VSS_IDX 0) % ULONG ∧
    (TIM0_OVF_vect st).PORTA = st.PORTA ^^^ (1 <<< VSS_OUT) := by
  simp only [TIM0_OVF_vect, h, if_true, and_self]

theorem tim0_no_reload (st : State) (h : decULong st.vss_overflows_left ≠ 0) :
    (TIM0_OVF_vect st).vss_overflows_left = decULong st.vss_overflows_left ∧
    (TIM0_OVF_vect st).PORTA = st.PORTA := by
  simp only [TIM0_OVF_vect, h, if_false, and_self]

theorem vssToggled_iff (st : State) :
    vssToggled st = true ↔ decULong st.vss_overflows_left = 0 := by
  by_cases h : decULong st.vss_overflows_left = 0
  · simp [vssToggled, (tim0_reload st h).2, testBit_xor_one_shiftLeft, h]
  · simp [vssToggled, (tim0_no_reload st h).2, h]

theorem pin_to_toggle_cases (i : Nat) (hi : i < 20) :
    pin_to_toggle.getD i 0 = 1 <<< HEP1_OUT ∨ pin_to_toggle.getD i 0 = 1 <<< HEP2_OUT := by
  interval_cases i <;> decide

/-! ## The position state machine -/

/-- C1: one firing of the timer-1 compare handler at position `i < 20` with the
rotational-speed sample `s < 256` leaves `hep_position = (i + 1) mod 20`, installs
the exact delay `(5 + s) * differences[(i + 1) mod 20]` of the next entry in
`OCR1A`, and writes the mask of the current entry `i` to `PINB`. -/
theorem C1_tim1_next_delay (st : State) (i s : Nat) (hi : i < 20) (hs : s < 256)
    (hp : st.hep_position = i) (hsamp : st.adc_outputs.getD HEP_IDX 0 = s) :
    (TIM1_COMPA_vect st).hep_position = (i + 1) % 20 ∧
    (TIM1_COMPA_vect st).OCR1A = (5 + s) * differences.getD ((i + 1) % 20) 0 ∧
    (TIM1_COMPA_vect st).PINB = pin_to_toggle.getD i 0 ∧
    (TIM1_COMPA_vect st).PORTB = st.PORTB ^^^ pin_to_toggle.getD i 0 := by
  subst hp hsamp
  exact ⟨tim1_hep_position st hi, tim1_OCR1A st hi hs, rfl, rfl⟩

/-- Witness of C1: at position 19 with sample 255 the handler wraps to position 0
and installs `260 * 20`, having toggled with the mask of entry 19. -/
theorem C1_tim1_next_delay_witness :
    (TIM1_COMPA_vect { main_init attiny84 with
        hep_position := 19, adc_outputs := [0, 255, 0, 0] }).hep_position = 0 ∧
    (TIM1_COMPA_vect { main_init attiny84 with
        hep_position := 19, adc_outputs := [0, 255, 0, 0] }).OCR1A = 5200 ∧
    (TIM1_COMPA_vect { main_init attiny84 with
        hep_position := 19, adc_outputs := [0, 255, 0, 0] }).PINB = 0x08 := by
  have h := C1_tim1_next_delay { main_init attiny84 with
    hep_position := 19, adc_outputs := [0, 255, 0, 0] } 19 255 (by decide) (by decide) rfl rfl
  exact ⟨h.1, h.2.1, h.2.2.1⟩

/-- C2: a firing of the timer-1 compare handler at position `i < 20` writes the
mask `pin_to_toggle[i]` to `PINB`; that mask is the single bit `1<<HEP1_OUT = 0x02`
or the single bit `1<<HEP2_OUT = 0x08`; so exactly one of the two HEP pins of
`PORTB` changes level, never both, and no other pin of the port changes. -/
theorem C2_tim1_toggles_one_pin (st : State) (i : Nat) (hi : i < 20)
    (hp : st.hep_position = i) :
    (TIM1_COMPA_vect st).PINB = pin_to_toggle.getD i 0 ∧
    (TIM1_COMPA_vect st).PORTB = st.PORTB ^^^ pin_to_toggle.getD i 0 ∧
    (pin_to_toggle.getD i 0 = 1 <<< HEP1_OUT ∨ pin_to_toggle.getD i 0 = 1 <<< HEP2_OUT) ∧
    (1 <<< HEP1_OUT = 0x02 ∧ 1 <<< HEP2_OUT = 0x08) ∧
    (((TIM1_COMPA_vect st).PORTB.testBit HEP1_OUT ≠ st.PORTB.testBit HEP1_OUT) ↔
      ¬ ((TIM1_COMPA_vect st).PORTB.testBit HEP2_OUT ≠ st.PORTB.testBit HEP2_OUT)) ∧
    (∀ j, j ≠ HEP1_OUT → j ≠ HEP2_OUT →
      (TIM1_COMPA_vect st).PORTB.testBit j = st.PORTB.testBit j) := by
  have hport : (TIM1_COMPA_vect st).PORTB = st.PORTB ^^^ pin_to_toggle.getD i 0 := by
    simp only [TIM1_COMPA_vect, hp]
  refine ⟨by simp only [TIM1_COMPA_vect, hp], hport, pin_to_toggle_cases i hi,
    ⟨by decide, by decide⟩, ?_, ?_⟩
  · rw [hport]
    rcases pin_to_toggle_cases i hi with h | h <;>
      rw [h, testBit_xor_one_shiftLeft, testBit_xor_one_shiftLeft] <;>
      simp [HEP1_OUT, HEP2_OUT]
  · intro j h1 h2
    rw [hport]
    rcases pin_to_toggle_cases i hi with h | h <;> rw [h, testBit_xor_one_shiftLeft]
    · simp [Ne.symm h1]
    · simp [Ne.symm h2]

/-- Witness of C2 at the initial state, position 0. -/
theorem C2_tim1_toggles_one_pin_witness :
    (TIM1_COMPA_vect (main_init attiny84)).PINB = 0x02 ∧
    (TIM1_COMPA_vect (main_init attiny84)).PORTB = 0x0A := by
  have h := C2_tim1_toggles_one_pin (main_init attiny84) 0 (by decide) rfl
  exact ⟨h.1, h.2.1⟩

/-- C3: the 20 entries of `differences` sum to 1000, and with the rotational-speed
sample constant at `s < 256` the delays installed in `OCR1A` by 20 consecutive
firings of the timer-1 compare handler sum to `(5 + s) * 1000`, from every
starting position `p < 20`. -/
theorem C3_period_stability (st : State) (p s : Nat) (hp : p < 20) (hs : s < 256)
    (hpos : st.hep_position = p) (hsamp : st.adc_outputs.getD HEP_IDX 0 = s) :
    differences.sum = 1000 ∧ differences.length = 20 ∧
    (hepDelays st 20).sum = (5 + s) * 1000 := by
  refine ⟨by decide, by decide, ?_⟩
  rw [hepDelays_eq st 20 (by omega) (by omega), hsamp, hpos, List.sum_map_mul_left,
    differences_cycle_sum p hp]

/-- Witness of C3 at the initial state: position 0 and sample 0 give 5000. -/
theorem C3_period_stability_witness :
    (hepDelays (main_init attiny84) 20).sum = 5000 :=
  (C3_period_stability (main_init attiny84) 0 0 (by decide) (by decide) rfl rfl).2.2

/-- C4: from every start position `p < 20`, 20 successive firings of the timer-1
compare handler use each of the 20 table indices exactly once and bring
`hep_position` back to `p`; no number of firings between 1 and 19 brings it back
to `p`; and `hep_position` is below 20 after any number of firings. -/
theorem C4_cyclic_closure (st : State) (p : Nat) (hp : p < 20)
    (hpos : st.hep_position = p) :
    (∀ j, j < 20 → (hepIndices st 20).count j = 1) ∧
    (hepIndices st 20).length = 20 ∧
    (TIM1_COMPA_vect^[20] st).hep_position = p ∧
    (∀ k, 1 ≤ k → k ≤ 19 → (TIM1_COMPA_vect^[k] st).hep_position ≠ p) ∧
    (∀ k, (TIM1_COMPA_vect^[k] st).hep_position < 20) := by
  have h20 : st.hep_position < 20 := by omega
  refine ⟨?_, ?_, ?_, ?_, ?_⟩
  · rw [hepIndices_eq st 20 h20, hpos]
    clear hpos h20
    interval_cases p <;> decide
  · rw [hepIndices_eq st 20 h20]; simp
  · rw [tim1_iterate_hep_position st 20 h20]; omega
  · intro k h1 h2
    rw [tim1_iterate_hep_position st k h20]; omega
  · intro k
    rw [tim1_iterate_hep_position st k h20]; omega

/-- Witness of C4 at the initial state, position 0. -/
theorem C4_cyclic_closure_witness :
    hepIndices (main_init attiny84) 20 = List.range 20 ∧
    (TIM1_COMPA_vect^[20] (main_init attiny84)).hep_position = 0 :=
  ⟨by decide, (C4_cyclic_closure (main_init attiny84) 0 (by decide) rfl).2.2.1⟩

/-! ## The cycle refresh handler -/

/-- C5: with the throttle sample `s` in `adc_outputs[TPS_IDX]`, one firing of the
timer-0 overflow handler sets `OCR0A` to `MIN_TPS = 0x25` if `s < MIN_TPS`, to
`MAX_TPS = 0xff - 0x25` if `s > MAX_TPS` and to `s` otherwise, so `OCR0A` lies in
`[MIN_TPS, MAX_TPS]`. -/
theorem C5_tps_clamp (st : State) (s : Nat) (hs : s < 256)
    (hsamp : st.adc_outputs.getD TPS_IDX 0 = s) :
    MIN_TPS = 0x25 ∧ MAX_TPS = 0xff - 0x25 ∧
    (s < MIN_TPS → (TIM0_OVF_vect st).OCR0A = MIN_TPS) ∧
    (s > MAX_TPS → (TIM0_OVF_vect st).OCR0A = MAX_TPS) ∧
    (MIN_TPS ≤ s → s ≤ MAX_TPS → (TIM0_OVF_vect st).OCR0A = s) ∧
    MIN_TPS ≤ (TIM0_OVF_vect st).OCR0A ∧ (TIM0_OVF_vect st).OCR0A ≤ MAX_TPS ∧
    (TIM0_OVF_vect st).OCR0A < 256 := by
  refine ⟨rfl, rfl, ?_⟩
  rw [tim0_OCR0A, hsamp]
  simp only [MIN_TPS, MAX_TPS]
  refine ⟨?_, ?_, ?_, ?_, ?_, ?_⟩ <;> split_ifs <;> omega

/-- Witness of C5: the samples 0, 100 and 255 give 0x25, 100 and 0xda. -/
theorem C5_tps_clamp_witness :
    (TIM0_OVF_vect { main_init attiny84 with adc_outputs := [0, 0, 0, 0] }).OCR0A = 0x25 ∧
    (TIM0_OVF_vect { main_init attiny84 with adc_outputs := [0, 0, 0, 100] }).OCR0A = 100 ∧
    (TIM0_OVF_vect { main_init attiny84 with adc_outputs := [0, 0, 0, 255] }).OCR0A = 0xda :=
  ⟨(C5_tps_clamp { main_init attiny84 with adc_outputs := [0, 0, 0, 0] } 0
      (by decide) rfl).2.2.1 (by decide),
   (C5_tps_clamp { main_init attiny84 with adc_outputs := [0, 0, 0, 100] } 100
      (by decide) rfl).2.2.2.2.1 (by decide) (by decide),
   (C5_tps_clamp { main_init attiny84 with adc_outputs := [0, 0, 0, 255] } 255
      (by decide) rfl).2.2.2.1 (by decide)⟩

theorem vssToggles_succ (st : State) (n : Nat) :
    vssToggles st (n + 1) = vssToggled st :: vssToggles (TIM0_OVF_vect st) n := rfl

theorem vssToggles_eq (st : State) (n : Nat) :
    vssToggles st n = (List.range n).map (fun k => vssToggled (TIM0_OVF_vect^[k] st)) := by
  induction n generalizing st with
  | zero => rfl
  | succ n ih =>
    rw [vssToggles_succ, ih, List.range_succ_eq_map, List.map_cons, List.map_map]
    refine congrArg₂ List.cons ?_ (List.map_congr_left fun k _ => ?_)
    · rw [Function.iterate_zero, id_eq]
    · rw [Function.comp_apply, Function.iterate_succ_apply]

/-- The speed-pulse divider from the initial state, with the vehicle-speed sample
left at its initial value 0: after `n` firings of the timer-0 overflow handler
the sample is still 0 and `vss_overflows_left = 5 - (n + 1) mod 5`. -/
theorem vss_from_init (io : IoBits) (n : Nat) :
    (TIM0_OVF_vect^[n] (main_init io)).adc_outputs = adc_outputs_init ∧
    (TIM0_OVF_vect^[n] (main_init io)).vss_overflows_left = 5 - (n + 1) % 5 := by
  induction n with
  | zero => exact ⟨rfl, rfl⟩
  | succ n ih =>
    obtain ⟨ha, hv⟩ := ih
    rw [Function.iterate_succ_apply']
    refine ⟨by rw [tim0_adc_outputs, ha], ?_⟩
    have hlt : (TIM0_OVF_vect^[n] (main_init io)).vss_overflows_left < ULONG := by
      rw [hv]; simp only [ULONG]; omega
    by_cases h : decULong (TIM0_OVF_vect^[n] (main_init io)).vss_overflows_left = 0
    · rw [(tim0_reload _ h).1, ha]
      have h1 := (decULong_eq_zero _ hlt).1 h
      simp only [adc_outputs_init, VSS_IDX, ULONG, List.getD_cons_succ, List.getD_cons_zero]
      omega
    · rw [(tim0_no_reload _ h).1, decULong_of_pos _ (by omega) hlt]
      have h1 : (TIM0_OVF_vect^[n] (main_init io)).vss_overflows_left ≠ 1 :=
        fun h1 => h ((decULong_eq_zero _ hlt).2 h1)
      omega

theorem vssToggled_from_init (io : IoBits) (n : Nat) :
    vssToggled (TIM0_OVF_vect^[n] (main_init io)) = decide ((n + 1) % 5 = 4) := by
  have hv := (vss_from_init io n).2
  have hlt : (TIM0_OVF_vect^[n] (main_init io)).vss_overflows_left < ULONG := by
    rw [hv]; simp only [ULONG]; omega
  rw [Bool.eq_iff_iff, vssToggled_iff, decULong_eq_zero _ hlt, hv, decide_eq_true_iff]
  omega

/-- C6 (behaviour of the code): from the initial state, where
`vss_overflows_left = BASE_VSS_TICKS = 4` and the vehicle-speed sample is 0, firing
number `n + 1` of the timer-0 overflow handler toggles the VSS pin exactly when
`(n + 1) mod 5 = 4`: the firings 4, 9, 14, ... toggle, firing 8 does not.  The
reload at line 206 is `5 + sample`, not `BASE_VSS_TICKS + sample`. -/
theorem C6_vss_toggles_every_five (io : IoBits) (n : Nat) :
    (main_init io).adc_outputs.getD VSS_IDX 0 = 0 ∧
    (main_init io).vss_overflows_left = BASE_VSS_TICKS ∧ BASE_VSS_TICKS = 4 ∧
    (vssToggled (TIM0_OVF_vect^[n] (main_init io)) = true ↔ (n + 1) % 5 = 4) ∧
    vssToggles (main_init io) 9 =
      [false, false, false, true, false, false, false, false, true] := by
  refine ⟨rfl, rfl, rfl, ?_, ?_⟩
  · rw [vssToggled_from_init, decide_eq_true_iff]
  · rw [vssToggles_eq]
    simp only [vssToggled_from_init]
    decide

theorem run_cons (io : IoBits) (st : State) (e : Irq) (es : List Irq) :
    run io st (e :: es) = run io (fire io st e) es := rfl

theorem countTim0_cons_tim0 (es : List Irq) :
    countTim0 (Irq.TIM0_OVF :: es) = countTim0 es + 1 := by
  simp [countTim0]

theorem countTim0_cons_other (e : Irq) (es : List Irq) (h : e ≠ Irq.TIM0_OVF) :
    countTim0 (e :: es) = countTim0 es := by
  simp [countTim0, List.count_cons, h]

/-- Only the timer-0 overflow handler touches the speed-pulse divider and `PORTA`. -/
theorem fire_other_vss (io : IoBits) (st : State) (e : Irq) (h : e ≠ Irq.TIM0_OVF) :
    (fire io st e).vss_overflows_left = st.vss_overflows_left ∧
    (fire io st e).PORTA = st.PORTA := by
  cases e with
  | TIM1_COMPA => exact ⟨rfl, rfl⟩
  | TIM0_OVF => exact absurd rfl h
  | ADC adch => exact ⟨rfl, rfl⟩
  | PCINT0 =>
    simp only [fire, PCINT0_vect]
    split <;> exact ⟨rfl, rfl⟩
  | PCINT1 => exact ⟨rfl, rfl⟩

/-- While fewer timer-0 overflows have fired than the divider holds, the divider
has counted exactly those overflows and `PORTA` has not changed, whatever other
interrupts were served in between. -/
theorem run_vss (io : IoBits) (es : List Irq) (st : State)
    (hlt : st.vss_overflows_left < ULONG) (hc : countTim0 es < st.vss_overflows_left) :
    (run io st es).vss_overflows_left = st.vss_overflows_left - countTim0 es ∧
    (run io st es).PORTA = st.PORTA := by
  induction es generalizing st with
  | nil => exact ⟨rfl, rfl⟩
  | cons e es ih =>
    rw [run_cons]
    by_cases he : e = Irq.TIM0_OVF
    · subst he
      rw [countTim0_cons_tim0] at hc ⊢
      have hd : decULong st.vss_overflows_left = st.vss_overflows_left - 1 :=
        decULong_of_pos _ (by omega) hlt
      have hne : decULong st.vss_overflows_left ≠ 0 := by omega
      obtain ⟨hv, hp⟩ := tim0_no_reload st hne
      have hv1 : (fire io st Irq.TIM0_OVF).vss_overflows_left = st.vss_overflows_left - 1 := by
        simp only [fire]; omega
      have hp1 : (fire io st Irq.TIM0_OVF).PORTA = st.PORTA := hp
      obtain ⟨h1, h2⟩ := ih (fire io st Irq.TIM0_OVF) (by omega) (by omega)
      exact ⟨by omega, by rw [h2, hp1]⟩
    · rw [countTim0_cons_other e es he] at hc ⊢
      obtain ⟨hv, hp⟩ := fire_other_vss io st e he
      obtain ⟨h1, h2⟩ := ih (fire io st e) (by omega) (by omega)
      exact ⟨by omega, by rw [h2, hp]⟩

/-- C7: when the timer-0 overflow handler reloads the divider (its pre-decrement
reaches zero) with an 8-bit vehicle-speed sample, the reload value is
`R = 5 + sample`, strictly larger for a larger sample; the reloading firing
toggles the VSS pin; over any following interrupt sequence with fewer than `R`
timer-0 overflows `PORTA` is unchanged; and after a sequence with `R - 1`
overflows the next overflow (the `R`-th) toggles the VSS pin, whatever samples the
ADC handler stored in between. -/
theorem C7_vss_divider (io : IoBits) (st : State)
    (hs : st.adc_outputs.getD VSS_IDX 0 < UCHAR)
    (hreload : decULong st.vss_overflows_left = 0) :
    (TIM0_OVF_vect st).vss_overflows_left = 5 + st.adc_outputs.getD VSS_IDX 0 ∧
    vssToggled st = true ∧
    (∀ st2 : State, decULong st2.vss_overflows_left = 0 →
      st2.adc_outputs.getD VSS_IDX 0 < UCHAR →
      st.adc_outputs.getD VSS_IDX 0 < st2.adc_outputs.getD VSS_IDX 0 →
      (TIM0_OVF_vect st).vss_overflows_left < (TIM0_OVF_vect st2).vss_overflows_left) ∧
    (∀ es : List Irq, countTim0 es < (TIM0_OVF_vect st).vss_overflows_left →
      (run io (TIM0_OVF_vect st) es).PORTA = (TIM0_OVF_vect st).PORTA) ∧
    (∀ es : List Irq, countTim0 es + 1 = (TIM0_OVF_vect st).vss_overflows_left →
      vssToggled (run io (TIM0_OVF_vect st) es) = true ∧
      (TIM0_OVF_vect (run io (TIM0_OVF_vect st) es)).PORTA =
        (TIM0_OVF_vect st).PORTA ^^^ (1 <<< VSS_OUT)) := by
  have hR : ∀ s : State, decULong s.vss_overflows_left = 0 →
      s.adc_outputs.getD VSS_IDX 0 < UCHAR →
      (TIM0_OVF_vect s).vss_overflows_left = 5 + s.adc_outputs.getD VSS_IDX 0 := by
    intro s h1 h2
    rw [(tim0_reload s h1).1]
    simp only [UCHAR, ULONG] at *
    omega
  have hRlt : (TIM0_OVF_vect st).vss_overflows_left < ULONG := by
    rw [hR st hreload hs]
    simp only [UCHAR, ULONG] at *
    omega
  refine ⟨hR st hreload hs, (vssToggled_iff st).2 hreload, ?_, ?_, ?_⟩
  · intro st2 h1 h2 h3
    rw [hR st hreload hs, hR st2 h1 h2]
    omega
  · intro es hc
    exact (run_vss io es _ hRlt hc).2
  · intro es hc
    obtain ⟨hv, hp⟩ := run_vss io es _ hRlt (by omega)
    have h1 : (run io (TIM0_OVF_vect st) es).vss_overflows_left = 1 := by omega
    have h0 : decULong (run io (TIM0_OVF_vect st) es).vss_overflows_left = 0 := by
      rw [h1]; decide
    exact ⟨(vssToggled_iff _).2 h0, by rw [(tim0_reload _ h0).2, hp]⟩

/-- Witness of C7: the fourth overflow after initialization reloads the divider
(sample 0, reload 5); four overflows later, with conversions and a button edge
served in between, the pin has not moved, and the fifth overflow toggles it. -/
theorem C7_vss_divider_witness :
    (TIM0_OVF_vect (TIM0_OVF_vect^[3] (main_init attiny84))).vss_overflows_left = 5 ∧
    (run attiny84 (TIM0_OVF_vect (TIM0_OVF_vect^[3] (main_init attiny84)))
      [Irq.TIM0_OVF, Irq.ADC 200, Irq.ADC 7, Irq.ADC 255, Irq.TIM0_OVF, Irq.PCINT0,
       Irq.TIM0_OVF, Irq.TIM0_OVF]).PORTA =
      (TIM0_OVF_vect (TIM0_OVF_vect^[3] (main_init attiny84))).PORTA ∧
    vssToggled (run attiny84 (TIM0_OVF_vect (TIM0_OVF_vect^[3] (main_init attiny84)))
      [Irq.TIM0_OVF, Irq.ADC 200, Irq.ADC 7, Irq.ADC 255, Irq.TIM0_OVF, Irq.PCINT0,
       Irq.TIM0_OVF, Irq.TIM0_OVF]) = true := by
  have h := C7_vss_divider attiny84 (TIM0_OVF_vect^[3] (main_init attiny84))
    (by decide) (by decide)
  exact ⟨h.1, h.2.2.2.1 _ (by decide), (h.2.2.2.2 _ (by decide)).1⟩

/-! ## The debounced start/stop handler -/

theorem tim0_ignore_bounces (st : State) :
    (TIM0_OVF_vect st).ignore_bounces =
      (if st.ignore_bounces ≠ 0 then decULong st.ignore_bounces else st.ignore_bounces) ∧
    (TIM0_OVF_vect st).TCCR1B = st.TCCR1B := by
  simp only [TIM0_OVF_vect]
  split <;> exact ⟨rfl, rfl⟩

theorem pcint0_ignored (io : IoBits) (st : State) (h : st.ignore_bounces ≠ 0) :
    PCINT0_vect io st = st := by
  simp only [PCINT0_vect, h, if_false]

theorem pcint0_accepted (io : IoBits) (st : State) (h : st.ignore_bounces = 0) :
    PCINT0_vect io st =
      { st with
        TCCR1B := (st.TCCR1B ^^^ (1 <<< io.CS11)) % UCHAR
        ignore_bounces := DEBOUNCE_TICKS } := by
  simp only [PCINT0_vect, h, if_true]

/-- While the debounce counter is running, only the timer-0 overflow handler
changes it, and no handler changes `TCCR1B`. -/
theorem fire_other_ib (io : IoBits) (st : State) (e : Irq) (h : e ≠ Irq.TIM0_OVF)
    (hib : st.ignore_bounces ≠ 0) :
    (fire io st e).ignore_bounces = st.ignore_bounces ∧
    (fire io st e).TCCR1B = st.TCCR1B := by
  cases e with
  | TIM1_COMPA => exact ⟨rfl, rfl⟩
  | TIM0_OVF => exact absurd rfl h
  | ADC adch => exact ⟨rfl, rfl⟩
  | PCINT0 =>
    simp only [fire, pcint0_ignored io st hib, and_self]
  | PCINT1 => exact ⟨rfl, rfl⟩

/-- While fewer timer-0 overflows have fired than the debounce counter holds, the
counter has counted exactly those overflows and `TCCR1B` has not changed,
whatever other interrupts (start/stop edges included) were served in between. -/
theorem run_ib (io : IoBits) (es : List Irq) (st : State)
    (hlt : st.ignore_bounces < ULONG) (hc : countTim0 es < st.ignore_bounces) :
    (run io st es).ignore_bounces = st.ignore_bounces - countTim0 es ∧
    (run io st es).TCCR1B = st.TCCR1B := by
  induction es generalizing st with
  | nil => exact ⟨rfl, rfl⟩
  | cons e es ih =>
    rw [run_cons]
    by_cases he : e = Irq.TIM0_OVF
    · subst he
      rw [countTim0_cons_tim0] at hc ⊢
      have hne : st.ignore_bounces ≠ 0 := by omega
      obtain ⟨hv, hp⟩ := tim0_ignore_bounces st
      rw [if_pos hne, decULong_of_pos _ (by omega) hlt] at hv
      have hv1 : (fire io st Irq.TIM0_OVF).ignore_bounces = st.ignore_bounces - 1 := hv
      have hp1 : (fire io st Irq.TIM0_OVF).TCCR1B = st.TCCR1B := hp
      obtain ⟨h1, h2⟩ := ih (fire io st Irq.TIM0_OVF) (by omega) (by omega)
      exact ⟨by omega, by rw [h2, hp1]⟩
    · rw [countTim0_cons_other e es he] at hc ⊢
      obtain ⟨hv, hp⟩ := fire_other_ib io st e he (by omega)
      obtain ⟨h1, h2⟩ := ih (fire io st e) (by omega) (by omega)
      exact ⟨by omega, by rw [h2, hp]⟩

/-- C8: a start/stop edge (PCINT0 handler) while `ignore_bounces > 0` leaves the
whole state unchanged; an edge while `ignore_bounces = 0` changes only `TCCR1B`
and `ignore_bounces`: it flips bit `CS11` of `TCCR1B`, leaves every other bit of
it as it was, and reloads `ignore_bounces` to `DEBOUNCE_TICKS = 10000`. -/
theorem C8_debounced_edge (io : IoBits) (st : State) (hc : io.CS11 < 8)
    (ht : st.TCCR1B < UCHAR) :
    (0 < st.ignore_bounces → PCINT0_vect io st = st) ∧
    (st.ignore_bounces = 0 →
      PCINT0_vect io st =
        { st with TCCR1B := st.TCCR1B ^^^ (1 <<< io.CS11), ignore_bounces := 10000 } ∧
      (PCINT0_vect io st).TCCR1B.testBit io.CS11 = !st.TCCR1B.testBit io.CS11 ∧
      (∀ j, j ≠ io.CS11 → (PCINT0_vect io st).TCCR1B.testBit j = st.TCCR1B.testBit j) ∧
      (PCINT0_vect io st).ignore_bounces = DEBOUNCE_TICKS ∧ DEBOUNCE_TICKS = 10000) := by
  have hmod : (st.TCCR1B ^^^ (1 <<< io.CS11)) % UCHAR = st.TCCR1B ^^^ (1 <<< io.CS11) := by
    apply Nat.mod_eq_of_lt
    simp only [UCHAR] at ht ⊢
    refine Nat.xor_lt_two_pow ht ?_
    rw [Nat.one_shiftLeft]
    exact Nat.pow_lt_pow_right (by decide) hc
  refine ⟨fun h => pcint0_ignored io st (by omega), fun h => ?_⟩
  have hacc := pcint0_accepted io st h
  rw [hmod] at hacc
  rw [hacc]
  refine ⟨rfl, ?_, ?_, rfl, rfl⟩
  · simp [testBit_xor_one_shiftLeft]
  · intro j hj
    rw [testBit_xor_one_shiftLeft]
    simp [Ne.symm hj]

/-- Witness of C8: at the initial state (counter 0, `TCCR1B = 0x08`) the edge is
accepted, sets `CS11` and starts the window; a second edge changes nothing. -/
theorem C8_debounced_edge_witness :
    (PCINT0_vect attiny84 (main_init attiny84)).TCCR1B = 0x0A ∧
    (PCINT0_vect attiny84 (main_init attiny84)).ignore_bounces = 10000 ∧
    PCINT0_vect attiny84 (PCINT0_vect attiny84 (main_init attiny84)) =
      PCINT0_vect attiny84 (main_init attiny84) := by
  have h := (C8_debounced_edge attiny84 (main_init attiny84) (by decide) (by decide)).2 rfl
  have h2 := (C8_debounced_edge attiny84 (PCINT0_vect attiny84 (main_init attiny84))
    (by decide) (by decide)).1 (by decide)
  exact ⟨by rw [h.1]; decide, h.2.2.2.1, h2⟩

/-- C9: after a start/stop edge has been accepted the counter holds 10000; over
any following interrupt sequence containing `k < 10000` timer-0 overflows the
counter is `10000 - k > 0`, `TCCR1B` is what the accepted edge left (every
further edge was ignored) and one more edge changes nothing; after a sequence
with 9999 overflows the next overflow (the 10000th) brings the counter to 0 and
the next edge is accepted; an overflow at counter 0 leaves it 0. -/
theorem C9_debounce_window (io : IoBits) (st : State) (hz : st.ignore_bounces = 0) :
    (PCINT0_vect io st).ignore_bounces = 10000 ∧
    (∀ es : List Irq, countTim0 es < 10000 →
      (run io (PCINT0_vect io st) es).ignore_bounces = 10000 - countTim0 es ∧
      0 < (run io (PCINT0_vect io st) es).ignore_bounces ∧
      (run io (PCINT0_vect io st) es).TCCR1B = (PCINT0_vect io st).TCCR1B ∧
      PCINT0_vect io (run io (PCINT0_vect io st) es) = run io (PCINT0_vect io st) es) ∧
    (∀ es : List Irq, countTim0 es = 9999 →
      (TIM0_OVF_vect (run io (PCINT0_vect io st) es)).ignore_bounces = 0 ∧
      (PCINT0_vect io (TIM0_OVF_vect (run io (PCINT0_vect io st) es))).TCCR1B =
        ((PCINT0_vect io st).TCCR1B ^^^ (1 <<< io.CS11)) % UCHAR ∧
      (PCINT0_vect io (TIM0_OVF_vect (run io (PCINT0_vect io st) es))).ignore_bounces =
        10000) ∧
    (∀ s : State, s.ignore_bounces = 0 → (TIM0_OVF_vect s).ignore_bounces = 0) := by
  have h0 : (PCINT0_vect io st).ignore_bounces = 10000 := by
    rw [pcint0_accepted io st hz]; rfl
  have hlt : (PCINT0_vect io st).ignore_bounces < ULONG := by
    rw [h0]; decide
  refine ⟨h0, ?_, ?_, ?_⟩
  · intro es hc
    obtain ⟨h1, h2⟩ := run_ib io es _ hlt (by omega)
    rw [h0] at h1
    exact ⟨h1, by omega, h2, pcint0_ignored io _ (by omega)⟩
  · intro es hc
    obtain ⟨h1, h2⟩ := run_ib io es _ hlt (by omega)
    rw [h0, hc] at h1
    obtain ⟨h3, h4⟩ := tim0_ignore_bounces (run io (PCINT0_vect io st) es)
    have h5 : (TIM0_OVF_vect (run io (PCINT0_vect io st) es)).ignore_bounces = 0 := by
      rw [h3, h1]; decide
    rw [pcint0_accepted io _ h5]
    exact ⟨h5, by show (_ ^^^ _) % _ = _; rw [h4, h2], rfl⟩
  · intro s hs
    rw [(tim0_ignore_bounces s).1, hs]
    rfl

/-- Witness of C9: after the first accepted edge, two overflows with an edge in
between leave the counter at 9998 and the clock-enable bit as the accepted edge
set it. -/
theorem C9_debounce_window_witness :
    (run attiny84 (PCINT0_vect attiny84 (main_init attiny84))
      [Irq.TIM0_OVF, Irq.PCINT0, Irq.TIM0_OVF]).ignore_bounces = 9998 ∧
    (run attiny84 (PCINT0_vect attiny84 (main_init attiny84))
      [Irq.TIM0_OVF, Irq.PCINT0, Irq.TIM0_OVF]).TCCR1B =
      (PCINT0_vect attiny84 (main_init attiny84)).TCCR1B := by
  have h := (C9_debounce_window attiny84 (main_init attiny84) rfl).2.1
    [Irq.TIM0_OVF, Irq.PCINT0, Irq.TIM0_OVF] (by decide)
  exact ⟨h.1, h.2.2.1⟩

/-! ## The analog sampler -/

theorem adc_step (io : IoBits) (a : Nat) (st : State) (h : st.adc_position < 4) :
    (ADC_vect io a st).adc_position = (st.adc_position + 1) % 4 ∧
    (ADC_vect io a st).adc_outputs = st.adc_outputs.set st.adc_position (a % UCHAR) := by
  refine ⟨?_, rfl⟩
  simp only [ADC_vect, UCHAR, NUM_ADC]
  split <;> omega

theorem adcRun_four (io : IoBits) (st : State) (a0 a1 a2 a3 : Nat) :
    adcRun io st [a0, a1, a2, a3] =
      ADC_vect io a3 (ADC_vect io a2 (ADC_vect io a1 (ADC_vect io a0 st))) := rfl

theorem adcIndices_four (io : IoBits) (st : State) (a0 a1 a2 a3 : Nat) :
    adcIndices io st [a0, a1, a2, a3] =
      [st.adc_position, (ADC_vect io a0 st).adc_position,
       (ADC_vect io a1 (ADC_vect io a0 st)).adc_position,
       (ADC_vect io a2 (ADC_vect io a1 (ADC_vect io a0 st))).adc_position] := rfl

/-- C10: from `adc_position = p < 4`, four consecutive firings of the
ADC-complete handler write the entries `p, p+1, p+2, p+3 (mod 4)` of `adc_outputs`
in that order (from 0: MAP, HEP, VSS, TPS), each of the four indices exactly once,
and bring `adc_position` back to `p`; afterwards each entry holds the sample of
its own firing; every single firing stores at the current index only and advances
it by one modulo 4. -/
theorem C10_adc_round_robin (io : IoBits) (st : State) (p a0 a1 a2 a3 : Nat)
    (hp : p < 4) (hpos : st.adc_position = p) (hlen : st.adc_outputs.length = NUM_ADC) :
    adcIndices io st [a0, a1, a2, a3] = [p, (p + 1) % 4, (p + 2) % 4, (p + 3) % 4] ∧
    (p = 0 → adcIndices io st [a0, a1, a2, a3] = [MAP_IDX, HEP_IDX, VSS_IDX, TPS_IDX]) ∧
    (∀ j, j < 4 → (adcIndices io st [a0, a1, a2, a3]).count j = 1) ∧
    (adcRun io st [a0, a1, a2, a3]).adc_position = p ∧
    (adcRun io st [a0, a1, a2, a3]).adc_outputs.getD p 0 = a0 % 256 ∧
    (adcRun io st [a0, a1, a2, a3]).adc_outputs.getD ((p + 1) % 4) 0 = a1 % 256 ∧
    (adcRun io st [a0, a1, a2, a3]).adc_outputs.getD ((p + 2) % 4) 0 = a2 % 256 ∧
    (adcRun io st [a0, a1, a2, a3]).adc_outputs.getD ((p + 3) % 4) 0 = a3 % 256 ∧
    (∀ (s : State) (a : Nat), s.adc_position < 4 →
      (ADC_vect io a s).adc_position = (s.adc_position + 1) % 4 ∧
      (ADC_vect io a s).adc_outputs = s.adc_outputs.set s.adc_position (a % 256)) := by
  have h0 := adc_step io a0 st (by omega)
  have h1 := adc_step io a1 (ADC_vect io a0 st) (by rw [h0.1]; omega)
  have h2 := adc_step io a2 (ADC_vect io a1 (ADC_vect io a0 st)) (by rw [h1.1]; omega)
  have h3 := adc_step io a3 (ADC_vect io a2 (ADC_vect io a1 (ADC_vect io a0 st)))
    (by rw [h2.1]; omega)
  have hp1 : (ADC_vect io a0 st).adc_position = (p + 1) % 4 := by
    rw [h0.1, hpos]
  have hp2 : (ADC_vect io a1 (ADC_vect io a0 st)).adc_position = (p + 2) % 4 := by
    rw [h1.1, hp1]; omega
  have hp3 : (ADC_vect io a2 (ADC_vect io a1 (ADC_vect io a0 st))).adc_position =
      (p + 3) % 4 := by
    rw [h2.1, hp2]; omega
  have hp4 : (ADC_vect io a3 (ADC_vect io a2 (ADC_vect io a1 (ADC_vect io a0 st)))).adc_position =
      p := by
    rw [h3.1, hp3]; omega
  have hidx : adcIndices io st [a0, a1, a2, a3] =
      [p, (p + 1) % 4, (p + 2) % 4, (p + 3) % 4] := by
    rw [adcIndices_four, hp3, hp2, hp1, hpos]
  have hout : (adcRun io st [a0, a1, a2, a3]).adc_outputs =
      (((st.adc_outputs.set p (a0 % 256)).set ((p + 1) % 4) (a1 % 256)).set
        ((p + 2) % 4) (a2 % 256)).set ((p + 3) % 4) (a3 % 256) := by
    rw [adcRun_four, h3.2, h2.2, h1.2, h0.2, hp3, hp2, hp1, hpos]
    rfl
  refine ⟨hidx, ?_, ?_, ?_, ?_, ?_, ?_, ?_, ?_⟩
  · intro hp0
    rw [hidx, hp0]
    rfl
  · intro j hj
    rw [hidx]
    clear hout h0 h1 h2 h3 hp1 hp2 hp3 hp4 hpos
    interval_cases p <;> interval_cases j <;> decide
  · rw [adcRun_four, hp4]
  all_goals
    first
    | (intro s a hs
       exact adc_step io a s hs)
    | (rw [hout]
       obtain ⟨l, hl⟩ : ∃ l, st.adc_outputs = l := ⟨_, rfl⟩
       rw [hl] at hlen ⊢
       match l, hlen with
       | [x0, x1, x2, x3], _ =>
         clear hidx hout h0 h1 h2 h3 hp1 hp2 hp3 hp4 hpos hl
         interval_cases p <;> simp)

/-- Witness of C10: four conversions from the initial state fill the table in
the order MAP, HEP, VSS, TPS and leave the index at 0. -/
theorem C10_adc_round_robin_witness :
    adcIndices attiny84 (main_init attiny84) [10, 20, 30, 40] = [0, 1, 2, 3] ∧
    (adcRun attiny84 (main_init attiny84) [10, 20, 30, 40]).adc_position = 0 := by
  have h := C10_adc_round_robin attiny84 (main_init attiny84) 0 10 20 30 40
    (by decide) rfl rfl
  exact ⟨h.1, h.2.2.2.1⟩

theorem adc_inputs_eq (io : IoBits) (hmux : io.MUX0 = 0 ∧ io.MUX1 = 1 ∧ io.MUX2 = 2) :
    adc_inputs io = [4, 1, 2, 3] := by
  simp only [adc_inputs, hmux.1, hmux.2.1, hmux.2.2]
  decide

theorem adc_inputs_getD_lt (io : IoBits) (hmux : io.MUX0 = 0 ∧ io.MUX1 = 1 ∧ io.MUX2 = 2)
    (k : Nat) : (adc_inputs io).getD k 0 < UCHAR := by
  rw [adc_inputs_eq io hmux]
  by_cases h : k < 4
  · interval_cases k <;> decide
  · rw [List.getD_eq_default _ _ (by simp; omega)]
    decide

theorem admux_value (io : IoBits) (hmux : io.MUX0 = 0 ∧ io.MUX1 = 1 ∧ io.MUX2 = 2)
    (k : Nat) :
    ((0 <<< io.REFS0) ||| (0 <<< io.REFS1) ||| (adc_inputs io).getD k 0) % UCHAR =
      (adc_inputs io).getD k 0 := by
  rw [Nat.zero_shiftLeft, Nat.zero_shiftLeft, Nat.zero_or, Nat.zero_or]
  exact Nat.mod_eq_of_lt (adc_inputs_getD_lt io hmux k)

/-- Every handler keeps the channel index below 4 and the multiplexer on the
input of the channel index. -/
theorem fire_admux (io : IoBits) (hmux : io.MUX0 = 0 ∧ io.MUX1 = 1 ∧ io.MUX2 = 2)
    (st : State) (e : Irq) (hp : st.adc_position < 4)
    (ha : st.ADMUX = (adc_inputs io).getD st.adc_position 0) :
    (fire io st e).adc_position < 4 ∧
    (fire io st e).ADMUX = (adc_inputs io).getD (fire io st e).adc_position 0 := by
  cases e with
  | TIM1_COMPA => exact ⟨hp, ha⟩
  | TIM0_OVF =>
    simp only [fire, TIM0_OVF_vect]
    split <;> exact ⟨hp, ha⟩
  | ADC adch =>
    have h1 := (adc_step io adch st hp).1
    refine ⟨by simp only [fire]; omega, ?_⟩
    show ((0 <<< io.REFS0) ||| (0 <<< io.REFS1) |||
      (adc_inputs io).getD (ADC_vect io adch st).adc_position 0) % UCHAR = _
    exact admux_value io hmux _
  | PCINT0 =>
    simp only [fire, PCINT0_vect]
    split <;> exact ⟨hp, ha⟩
  | PCINT1 => exact ⟨hp, ha⟩

theorem run_admux (io : IoBits) (hmux : io.MUX0 = 0 ∧ io.MUX1 = 1 ∧ io.MUX2 = 2)
    (es : List Irq) (st : State) (hp : st.adc_position < 4)
    (ha : st.ADMUX = (adc_inputs io).getD st.adc_position 0) :
    (run io st es).adc_position < 4 ∧
    (run io st es).ADMUX = (adc_inputs io).getD (run io st es).adc_position 0 := by
  induction es generalizing st with
  | nil => exact ⟨hp, ha⟩
  | cons e es ih =>
    rw [run_cons]
    obtain ⟨h1, h2⟩ := fire_admux io hmux st e hp ha
    exact ih _ h1 h2

/-- C11: with the multiplexer bit numbers of the data sheet (`MUX0 = 0`,
`MUX1 = 1`, `MUX2 = 2`) the table `adc_inputs` maps the indices MAP, HEP, VSS, TPS
to the pins 4, 1, 2, 3; initialization selects `adc_inputs[0]` with
`adc_position = 0`; and in every state reached from it by any interrupt sequence
the channel index is below 4 and `ADMUX` holds `adc_inputs[adc_position]`, the
index at which the next ADC-complete firing stores its sample. -/
theorem C11_adc_channel_mapping (io : IoBits)
    (hmux : io.MUX0 = 0 ∧ io.MUX1 = 1 ∧ io.MUX2 = 2) (es : List Irq) :
    adc_inputs io = [MAP_IN, HEP_IN, VSS_IN, TPS_IN] ∧
    ((adc_inputs io).getD MAP_IDX 0 = 4 ∧ (adc_inputs io).getD HEP_IDX 0 = 1 ∧
      (adc_inputs io).getD VSS_IDX 0 = 2 ∧ (adc_inputs io).getD TPS_IDX 0 = 3) ∧
    ((main_init io).adc_position = 0 ∧ (main_init io).ADMUX = (adc_inputs io).getD 0 0) ∧
    (run io (main_init io) es).adc_position < NUM_ADC ∧
    (run io (main_init io) es).ADMUX =
      (adc_inputs io).getD (run io (main_init io) es).adc_position 0 ∧
    (∀ adch : Nat, (ADC_vect io adch (run io (main_init io) es)).adc_outputs =
      (run io (main_init io) es).adc_outputs.set (run io (main_init io) es).adc_position
        (adch % 256)) := by
  have h0 : (main_init io).ADMUX = (adc_inputs io).getD 0 0 := admux_value io hmux 0
  have hr := run_admux io hmux es (main_init io) (Nat.zero_lt_succ 3) h0
  have hin := adc_inputs_eq io hmux
  refine ⟨hin, ?_, ⟨rfl, h0⟩, hr.1, hr.2, fun adch => rfl⟩
  rw [hin]
  decide

/-- Witness of C11 on the ATtiny84: after five conversions and a timer overflow
the index is 1 and the multiplexer selects pin 1, the HEP potentiometer. -/
theorem C11_adc_channel_mapping_witness :
    adc_inputs attiny84 = [4, 1, 2, 3] ∧
    (run attiny84 (main_init attiny84)
      [Irq.ADC 1, Irq.ADC 2, Irq.TIM0_OVF, Irq.ADC 3, Irq.ADC 4, Irq.ADC 5]).ADMUX =
      (adc_inputs attiny84).getD (run attiny84 (main_init attiny84)
        [Irq.ADC 1, Irq.ADC 2, Irq.TIM0_OVF, Irq.ADC 3, Irq.ADC 4, Irq.ADC 5]).adc_position 0 := by
  have h := C11_adc_channel_mapping attiny84 ⟨rfl, rfl, rfl⟩
    [Irq.ADC 1, Irq.ADC 2, Irq.TIM0_OVF, Irq.ADC 3, Irq.ADC 4, Irq.ADC 5]
  exact ⟨h.1, h.2.2.2.2.1⟩

/-! ## Barometric duty cycle -/

theorem tim0_OCR0B (st : State) :
    (TIM0_OVF_vect st).OCR0B =
      if st.reading_baro ≠ 0 then st.barodc else st.adc_outputs.getD MAP_IDX 0 := by
  simp only [TIM0_OVF_vect]
  split <;> rfl

theorem main_eq_main_init (io : IoBits) (pina : Nat) : main io pina = main_init io := rfl

theorem main_barodc (io : IoBits) (pina : Nat) :
    (main io pina).barodc = BARO_DC_TWO_BAR := by
  have h : ((1 <<< START_IN) ||| (0 <<< BARNESS_IN) ||| (0 <<< VSS_OUT)) &&&
      (1 <<< BARNESS_IN) = 0 := by decide
  simp only [main, read_PORTA, main_init, h, ne_eq, not_true_eq_false, if_false]

theorem main_PORTA (io : IoBits) (pina : Nat) :
    (main io pina).PORTA = 1 <<< START_IN := by
  simp only [main, main_init]
  decide

/-- No handler writes `barodc`. -/
theorem fire_barodc (io : IoBits) (st : State) (e : Irq) :
    (fire io st e).barodc = st.barodc := by
  cases e with
  | TIM1_COMPA => rfl
  | TIM0_OVF =>
    simp only [fire, TIM0_OVF_vect]
    split <;> rfl
  | ADC adch => rfl
  | PCINT0 =>
    simp only [fire, PCINT0_vect]
    split <;> rfl
  | PCINT1 => rfl

theorem run_barodc (io : IoBits) (es : List Irq) (st : State) :
    (run io st es).barodc = st.barodc := by
  induction es generalizing st with
  | nil => rfl
  | cons e es ih => rw [run_cons, ih, fire_barodc]

/-- C12: one firing of the timer-0 overflow handler sets `OCR0B` to `barodc` when
`reading_baro` is set, whatever the samples are (a run that differs only in
`adc_outputs` publishes the same value), and to `adc_outputs[MAP_IDX]` when it is
clear; after initialization with the selector pin low, and after any interrupt
sequence, the value published while `reading_baro` is set is
`BARO_DC_TWO_BAR = 0x7C`. -/
theorem C12_map_duty_source (io : IoBits) (st : State) :
    (st.reading_baro ≠ 0 → (TIM0_OVF_vect st).OCR0B = st.barodc) ∧
    (st.reading_baro ≠ 0 → ∀ samples : List Nat,
      (TIM0_OVF_vect { st with adc_outputs := samples }).OCR0B = (TIM0_OVF_vect st).OCR0B) ∧
    (st.reading_baro = 0 → (TIM0_OVF_vect st).OCR0B = st.adc_outputs.getD MAP_IDX 0) ∧
    (∀ (pina : Nat) (es : List Irq), pina.testBit BARNESS_IN = false →
      (run io (main io pina) es).reading_baro ≠ 0 →
      (TIM0_OVF_vect (run io (main io pina) es)).OCR0B = BARO_DC_TWO_BAR) ∧
    BARO_DC_TWO_BAR = 0x7C := by
  refine ⟨fun h => ?_, fun h samples => ?_, fun h => ?_, fun pina es _ h => ?_, rfl⟩
  · rw [tim0_OCR0B, if_pos h]
  · rw [tim0_OCR0B, tim0_OCR0B, if_pos h, if_pos h]
  · rw [tim0_OCR0B, if_neg (not_not.mpr h)]
  · rw [tim0_OCR0B, if_pos h, run_barodc, main_barodc]

/-- C13 (behaviour of the code): whatever the levels of the port A pins are
during initialization, `main` leaves `barodc = BARO_DC_TWO_BAR`; in particular
with the selector pin `BARNESS_IN` high (jumper installed) `barodc` is `0x7C`, not
`BARO_DC_THREE_BAR = 0x52`.  Line 335 tests the `PORTA` latch, whose bit
`BARNESS_IN` line 275 has just cleared, instead of the pin register `PINA`. -/
theorem C13_barodc_ignores_jumper (io : IoBits) (pina : Nat) :
    (main io pina).barodc = BARO_DC_TWO_BAR ∧
    (main io pina).PORTA &&& (1 <<< BARNESS_IN) = 0 ∧
    (Nat.testBit 1 BARNESS_IN = true ∧ (main io 1).barodc = 0x7C ∧
      (main io 1).barodc ≠ BARO_DC_THREE_BAR) := by
  refine ⟨main_barodc io pina, ?_, by decide, ?_, ?_⟩
  · rw [main_PORTA]
    decide
  · rw [main_barodc]
    decide
  · rw [main_barodc]
    decide

/-! ## Range of the firing delay -/

theorem differences_getD_ge (i : Nat) (hi : i < 20) : 9 ≤ differences.getD i 0 := by
  interval_cases i <;> decide

/-- C14: for every rotational-speed sample `s < 256` and table index `i < 20` the
delay `(5 + s) * differences[i]` lies between 45 and 33800, so it is nonzero and
below `2^16` and its 16-bit value is the exact product; that is the value the
timer-1 compare handler stores in `OCR1A` when it moves to index `i`. -/
theorem C14_delay_range (s i : Nat) (hs : s < 256) (hi : i < 20) :
    45 ≤ (5 + s) * differences.getD i 0 ∧
    (5 + s) * differences.getD i 0 ≤ 33800 ∧
    (5 + s) * differences.getD i 0 ≠ 0 ∧
    (5 + s) * differences.getD i 0 < 2 ^ 16 ∧
    ((5 + s) * differences.getD i 0) % UINT = (5 + s) * differences.getD i 0 ∧
    (∀ st : State, st.hep_position < 20 → (st.hep_position + 1) % 20 = i →
      st.adc_outputs.getD HEP_IDX 0 = s →
      (TIM1_COMPA_vect st).OCR1A = (5 + s) * differences.getD i 0) := by
  have hlo : 45 ≤ (5 + s) * differences.getD i 0 :=
    Nat.mul_le_mul (show 5 ≤ 5 + s by omega) (differences_getD_ge i hi)
  have hhi : (5 + s) * differences.getD i 0 ≤ 33800 :=
    Nat.mul_le_mul (show 5 + s ≤ 260 by omega) (differences_getD_le i)
  refine ⟨hlo, hhi, by omega, by omega, Nat.mod_eq_of_lt (delay_lt_uint s i hs), ?_⟩
  intro st hp hnext hsamp
  rw [tim1_OCR1A st hp (by omega), hnext, hsamp]

/-- Witness of C14: the smallest delay, sample 0 at index 9, is 45, and the
largest, sample 255 at index 1, is 33800. -/
theorem C14_delay_range_witness :
    (5 + 0) * differences.getD 9 0 = 45 ∧ (5 + 255) * differences.getD 1 0 = 33800 ∧
    ((5 + 255) * differences.getD 1 0) % UINT = (5 + 255) * differences.getD 1 0 :=
  ⟨by decide, by decide,
    (C14_delay_range 255 1 (by decide) (by decide)).2.2.2.2.1⟩

/-! ## Writers of the analog value table -/

theorem fire_adc_outputs (io : IoBits) (st : State) (e : Irq)
    (h : ∀ adch, e ≠ Irq.ADC adch) : (fire io st e).adc_outputs = st.adc_outputs := by
  cases e with
  | TIM1_COMPA => rfl
  | TIM0_OVF => exact tim0_adc_outputs st
  | ADC adch => exact absurd rfl (h adch)
  | PCINT0 =>
    simp only [fire, PCINT0_vect]
    split <;> rfl
  | PCINT1 => rfl

theorem adc_other_entries (io : IoBits) (adch : Nat) (st : State) (j : Nat)
    (hj : j ≠ st.adc_position) :
    (ADC_vect io adch st).adc_outputs.getD j 0 = st.adc_outputs.getD j 0 := by
  show (st.adc_outputs.set st.adc_position (adch % UCHAR)).getD j 0 = _
  rw [List.getD_eq_getElem?_getD, List.getD_eq_getElem?_getD,
    List.getElem?_set_ne (Ne.symm hj)]

/-- C15: the timer-1 compare, timer-0 overflow, PCINT0 and PCINT1 handlers leave
`adc_outputs` unchanged; a firing of the ADC-complete handler leaves every entry
other than the one at its current index unchanged and keeps the table length; so
an entry changes during a firing only if the handler is the ADC-complete handler
and the entry is the one at its current index. -/
theorem C15_adc_outputs_sole_writer (io : IoBits) (st : State) :
    (TIM1_COMPA_vect st).adc_outputs = st.adc_outputs ∧
    (TIM0_OVF_vect st).adc_outputs = st.adc_outputs ∧
    (PCINT0_vect io st).adc_outputs = st.adc_outputs ∧
    (PCINT1_vect st).adc_outputs = st.adc_outputs ∧
    (∀ adch j : Nat, j ≠ st.adc_position →
      (ADC_vect io adch st).adc_outputs.getD j 0 = st.adc_outputs.getD j 0) ∧
    (∀ adch : Nat, (ADC_vect io adch st).adc_outputs.length = st.adc_outputs.length) ∧
    (∀ (e : Irq) (j : Nat),
      (fire io st e).adc_outputs.getD j 0 ≠ st.adc_outputs.getD j 0 →
      (∃ adch, e = Irq.ADC adch) ∧ j = st.adc_position) := by
  refine ⟨rfl, tim0_adc_outputs st, fire_adc_outputs io st Irq.PCINT0 (fun _ h => by cases h),
    rfl, fun adch j hj => adc_other_entries io adch st j hj, fun adch => ?_, fun e j hne => ?_⟩
  · show (st.adc_outputs.set st.adc_position (adch % UCHAR)).length = _
    rw [List.length_set]
  · by_cases he : ∃ adch, e = Irq.ADC adch
    · refine ⟨he, ?_⟩
      obtain ⟨adch, rfl⟩ := he
      by_contra hj
      exact hne (adc_other_entries io adch st j hj)
    · exfalso
      apply hne
      rw [fire_adc_outputs io st e (fun adch h => he ⟨adch, h⟩)]

/-! ## The alternate position handler -/

theorem pin_matches_ch (i : Nat) (hi : i < 20) :
    pin_to_toggle.getD i 0 =
      if ch_to_toggle.getD i 0 ≠ 0 then 1 <<< HEP1_OUT else 1 <<< HEP2_OUT := by
  interval_cases i <;> decide

theorem xor_pin_lt (x i : Nat) (hx : x < UCHAR) (hi : i < 20) :
    x ^^^ pin_to_toggle.getD i 0 < UCHAR := by
  have h8 : pin_to_toggle.getD i 0 < 2 ^ 8 := by
    rcases pin_to_toggle_cases i hi with h | h <;> rw [h] <;> decide
  exact Nat.xor_lt_two_pow hx h8

theorem tim1_alt_hep_position (st : State) (h : st.hep_position < 20) :
    (TIM1_COMPA_vect_alt st).hep_position = (st.hep_position + 1) % 20 := by
  simp only [TIM1_COMPA_vect_alt, UCHAR]
  omega

theorem tim1_alt_PORTB (st : State) (h : st.hep_position < 20) (hport : st.PORTB < UCHAR) :
    (TIM1_COMPA_vect_alt st).PORTB = st.PORTB ^^^ pin_to_toggle.getD st.hep_position 0 := by
  have hx := xor_pin_lt st.PORTB st.hep_position hport h
  rw [pin_matches_ch st.hep_position h] at hx ⊢
  by_cases hc : ch_to_toggle.getD st.hep_position 0 ≠ 0
  · rw [if_pos hc] at hx ⊢
    simp only [TIM1_COMPA_vect_alt, if_pos hc]
    exact Nat.mod_eq_of_lt hx
  · rw [if_neg hc] at hx ⊢
    simp only [TIM1_COMPA_vect_alt, if_neg hc]
    exact Nat.mod_eq_of_lt hx

/-- C17: at every position `i < 20` the compact timer-1 compare handler and the
alternate handler kept in the source comment agree: `pin_to_toggle[i]` is
`1<<HEP1_OUT` when `ch_to_toggle[i]` is nonzero and `1<<HEP2_OUT` when it is zero,
so both leave the same `PORTB`; the wrap `if >= 20 then 0` equals `% 20`, so both
leave the same `hep_position`; and both install the same `OCR1A`, for every
sample. -/
theorem C17_compact_matches_alternate (st : State) (i : Nat) (hi : i < 20)
    (hp : st.hep_position = i) (hport : st.PORTB < UCHAR) :
    pin_to_toggle.getD i 0 =
      (if ch_to_toggle.getD i 0 ≠ 0 then 1 <<< HEP1_OUT else 1 <<< HEP2_OUT) ∧
    (TIM1_COMPA_vect st).PORTB = (TIM1_COMPA_vect_alt st).PORTB ∧
    (if (i + 1) % UCHAR ≥ 20 then 0 else (i + 1) % UCHAR) = ((i + 1) % UCHAR) % 20 ∧
    (TIM1_COMPA_vect st).hep_position = (TIM1_COMPA_vect_alt st).hep_position ∧
    (TIM1_COMPA_vect st).OCR1A = (TIM1_COMPA_vect_alt st).OCR1A := by
  subst hp
  have hpos : (TIM1_COMPA_vect st).hep_position = (TIM1_COMPA_vect_alt st).hep_position := by
    rw [tim1_hep_position st hi, tim1_alt_hep_position st hi]
  refine ⟨pin_matches_ch _ hi, ?_, ?_, hpos, ?_⟩
  · rw [tim1_alt_PORTB st hi hport]
    rfl
  · simp only [UCHAR]
    split <;> omega
  · show ((5 + st.adc_outputs.getD HEP_IDX 0) *
        differences.getD (TIM1_COMPA_vect st).hep_position 0) % UINT =
      ((5 + st.adc_outputs.getD HEP_IDX 0) *
        differences.getD (TIM1_COMPA_vect_alt st).hep_position 0) % UINT
    rw [hpos]

/-- Witness of C17: at the wrap position 19 both handlers go to position 0 and
leave the same port value. -/
theorem C17_compact_matches_alternate_witness :
    (TIM1_COMPA_vect { main_init attiny84 with hep_position := 19 }).PORTB =
      (TIM1_COMPA_vect_alt { main_init attiny84 with hep_position := 19 }).PORTB ∧
    (TIM1_COMPA_vect { main_init attiny84 with hep_position := 19 }).hep_position =
      (TIM1_COMPA_vect_alt { main_init attiny84 with hep_position := 19 }).hep_position := by
  have h := C17_compact_matches_alternate { main_init attiny84 with hep_position := 19 } 19
    (by decide) rfl (by decide)
  exact ⟨h.2.1, h.2.2.2.1⟩

/-! ## Range of the speed-pulse divider -/

theorem getD_lt_of_all_lt (l : List Nat) (k : Nat) (h : ∀ x ∈ l, x < UCHAR) :
    l.getD k 0 < UCHAR := by
  by_cases hk : k < l.length
  · rw [List.getD_eq_getElem l 0 hk]
    exact h _ (List.getElem_mem hk)
  · rw [List.getD_eq_default _ _ (by omega)]
    decide

/-- Every handler keeps the samples inside 8 bits and the divider between 1 and
260. -/
theorem fire_vss_range (io : IoBits) (st : State) (e : Irq)
    (ha : ∀ x ∈ st.adc_outputs, x < UCHAR)
    (hv : 1 ≤ st.vss_overflows_left ∧ st.vss_overflows_left ≤ 260) :
    (∀ x ∈ (fire io st e).adc_outputs, x < UCHAR) ∧
    1 ≤ (fire io st e).vss_overflows_left ∧ (fire io st e).vss_overflows_left ≤ 260 := by
  by_cases he : e = Irq.TIM0_OVF
  · subst he
    have hlt : st.vss_overflows_left < ULONG := by
      simp only [ULONG]; omega
    have hs := getD_lt_of_all_lt st.adc_outputs VSS_IDX ha
    simp only [UCHAR] at hs
    refine ⟨by rw [fire_adc_outputs io st _ (fun _ h => by cases h)]; exact ha, ?_⟩
    by_cases h0 : decULong st.vss_overflows_left = 0
    · have h1 : (fire io st Irq.TIM0_OVF).vss_overflows_left =
          (5 + st.adc_outputs.getD VSS_IDX 0) % ULONG := (tim0_reload st h0).1
      rw [h1]
      simp only [ULONG]
      omega
    · have h1 : (fire io st Irq.TIM0_OVF).vss_overflows_left =
          decULong st.vss_overflows_left := (tim0_no_reload st h0).1
      have h2 : st.vss_overflows_left ≠ 1 := fun h => h0 ((decULong_eq_zero _ hlt).2 h)
      rw [h1, decULong_of_pos _ (by omega) hlt]
      omega
  · obtain ⟨h1, _⟩ := fire_other_vss io st e he
    rw [h1]
    refine ⟨?_, hv.1, hv.2⟩
    by_cases hadc : ∃ adch, e = Irq.ADC adch
    · obtain ⟨adch, rfl⟩ := hadc
      intro x hx
      have hx1 : x ∈ st.adc_outputs.set st.adc_position (adch % UCHAR) := hx
      rcases List.mem_or_eq_of_mem_set hx1 with h | h
      · exact ha x h
      · rw [h]
        exact Nat.mod_lt _ (by decide)
    · rw [fire_adc_outputs io st e (fun adch h => hadc ⟨adch, h⟩)]
      exact ha

theorem run_vss_range (io : IoBits) (es : List Irq) (st : State)
    (ha : ∀ x ∈ st.adc_outputs, x < UCHAR)
    (hv : 1 ≤ st.vss_overflows_left ∧ st.vss_overflows_left ≤ 260) :
    (∀ x ∈ (run io st es).adc_outputs, x < UCHAR) ∧
    1 ≤ (run io st es).vss_overflows_left ∧ (run io st es).vss_overflows_left ≤ 260 := by
  induction es generalizing st with
  | nil => exact ⟨ha, hv⟩
  | cons e es ih =>
    rw [run_cons]
    obtain ⟨h1, h2⟩ := fire_vss_range io st e ha hv
    exact ih _ h1 h2

/-- C18: in every state reached from the initial state by any interrupt sequence
(conversions carrying arbitrary values of the 8-bit `ADCH`), every sample is below
256 and `vss_overflows_left` is between 1 and 260, so the pre-decrement of the
timer-0 overflow handler does not wrap (it yields the value minus one), and the
VSS pin toggles at the latest on the 260th further overflow. -/
theorem C18_vss_divider_range (io : IoBits) (es : List Irq) :
    (∀ x ∈ (run io (main_init io) es).adc_outputs, x < 256) ∧
    1 ≤ (run io (main_init io) es).vss_overflows_left ∧
    (run io (main_init io) es).vss_overflows_left ≤ 260 ∧
    decULong (run io (main_init io) es).vss_overflows_left =
      (run io (main_init io) es).vss_overflows_left - 1 ∧
    (∀ es2 : List Irq, countTim0 es2 + 1 = (run io (main_init io) es).vss_overflows_left →
      vssToggled (run io (run io (main_init io) es) es2) = true) := by
  have hall : ∀ x ∈ adc_outputs_init, x < UCHAR := by decide
  have hinit : ∀ x ∈ (main_init io).adc_outputs, x < UCHAR := hall
  have h4 : (main_init io).vss_overflows_left = 4 := rfl
  obtain ⟨h1, h2, h3⟩ := run_vss_range io es (main_init io) hinit
    ⟨by rw [h4]; decide, by rw [h4]; decide⟩
  have hlt : (run io (main_init io) es).vss_overflows_left < ULONG := by
    simp only [ULONG]; omega
  refine ⟨h1, h2, h3, decULong_of_pos _ (by omega) hlt, fun es2 hc => ?_⟩
  obtain ⟨hv, _⟩ := run_vss io es2 _ hlt (by omega)
  have h1 : (run io (run io (main_init io) es) es2).vss_overflows_left = 1 := by omega
  rw [vssToggled_iff, h1]
  decide

/-! ## The two-channel waveform over one table cycle -/

theorem hepMasks_succ (st : State) (n : Nat) :
    hepMasks st (n + 1) = (TIM1_COMPA_vect st).PINB :: hepMasks (TIM1_COMPA_vect st) n := rfl

theorem hepIndices_succ (st : State) (n : Nat) :
    hepIndices st (n + 1) = st.hep_position :: hepIndices (TIM1_COMPA_vect st) n := rfl

theorem tim1_PINB (st : State) :
    (TIM1_COMPA_vect st).PINB = pin_to_toggle.getD st.hep_position 0 := rfl

theorem tim1_PORTB (st : State) :
    (TIM1_COMPA_vect st).PORTB = st.PORTB ^^^ (TIM1_COMPA_vect st).PINB := rfl

theorem hepMasks_eq (st : State) (n : Nat) :
    hepMasks st n = (hepIndices st n).map (fun i => pin_to_toggle.getD i 0) := by
  induction n generalizing st with
  | zero => rfl
  | succ n ih => rw [hepMasks_succ, hepIndices_succ, List.map_cons, ih, tim1_PINB]

/-- The port after n firings is the port before them, toggled by all the masks
written in between. -/
theorem tim1_iterate_PORTB (st : State) (n : Nat) :
    (TIM1_COMPA_vect^[n] st).PORTB = st.PORTB ^^^ (hepMasks st n).foldr (· ^^^ ·) 0 := by
  induction n generalizing st with
  | zero =>
    rw [Function.iterate_zero, id_eq]
    exact (Nat.xor_zero _).symm
  | succ n ih =>
    rw [Function.iterate_succ_apply, ih, hepMasks_succ, List.foldr_cons, tim1_PORTB,
      Nat.xor_assoc]

theorem cycle_masks (p : Nat) (hp : p < 20) :
    (((List.range 20).map (fun k => (p + k) % 20)).map
        (fun i => pin_to_toggle.getD i 0)).count (1 <<< HEP1_OUT) = 10 ∧
    (((List.range 20).map (fun k => (p + k) % 20)).map
        (fun i => pin_to_toggle.getD i 0)).count (1 <<< HEP2_OUT) = 10 ∧
    (((List.range 20).map (fun k => (p + k) % 20)).map
        (fun i => pin_to_toggle.getD i 0)).foldr (· ^^^ ·) 0 = 0 := by
  interval_cases p <;> decide

/-- C19: from every position `p < 20`, among the 20 masks written by 20
consecutive firings of the timer-1 compare handler exactly 10 are `1<<HEP1_OUT`
and exactly 10 are `1<<HEP2_OUT`; `PORTB` after the 20 firings equals `PORTB`
before them; hence `PORTB` after `k + 20` firings equals `PORTB` after `k`
firings, for every `k`. -/
theorem C19_cycle_restores_pins (st : State) (p : Nat) (hp : p < 20)
    (hpos : st.hep_position = p) :
    (hepMasks st 20).count (1 <<< HEP1_OUT) = 10 ∧
    (hepMasks st 20).count (1 <<< HEP2_OUT) = 10 ∧
    (hepMasks st 20).length = 20 ∧
    (TIM1_COMPA_vect^[20] st).PORTB = st.PORTB ∧
    (∀ k, (TIM1_COMPA_vect^[20 + k] st).PORTB = (TIM1_COMPA_vect^[k] st).PORTB) := by
  have h20 : st.hep_position < 20 := by omega
  have hm : ∀ s : State, s.hep_position < 20 →
      hepMasks s 20 = ((List.range 20).map (fun k => (s.hep_position + k) % 20)).map
        (fun i => pin_to_toggle.getD i 0) := by
    intro s hs
    rw [hepMasks_eq, hepIndices_eq s 20 hs]
  have hback : ∀ s : State, s.hep_position < 20 →
      (TIM1_COMPA_vect^[20] s).PORTB = s.PORTB := by
    intro s hs
    rw [tim1_iterate_PORTB, hm s hs, (cycle_masks _ hs).2.2, Nat.xor_zero]
  refine ⟨?_, ?_, ?_, hback st h20, fun k => ?_⟩
  · rw [hm st h20]
    exact (cycle_masks _ h20).1
  · rw [hm st h20]
    exact (cycle_masks _ h20).2.1
  · rw [hm st h20, List.length_map, List.length_map, List.length_range]
  · rw [Function.iterate_add_apply]
    apply hback
    rw [tim1_iterate_hep_position st k h20]
    exact Nat.mod_lt _ (by decide)

/-- Witness of C19 at the initial state: the port is `0x08` before and after one
table cycle. -/
theorem C19_cycle_restores_pins_witness :
    (TIM1_COMPA_vect^[20] (main_init attiny84)).PORTB = 0x08 :=
  (C19_cycle_restores_pins (main_init attiny84) 0 (by decide) rfl).2.2.2.1

/-! ## Phase offset of the two channels -/

theorem offset_entries (i : Nat) (hi : i < 20) :
    (differences.getD i 0 = OFFSET ↔ i ∈ [0, 2, 4, 6, 10, 12, 14, 16]) ∧
    (differences.getD i 0 = OFFSET →
      pin_to_toggle.getD i 0 = 1 <<< HEP1_OUT ∧
      pin_to_toggle.getD ((i + 19) % 20) 0 = 1 <<< HEP2_OUT) := by
  interval_cases i <;> decide

/-- C20: a table entry `i < 20` has delta `OFFSET = 20` exactly when `i` is one
of 0, 2, 4, 6, 10, 12, 14, 16; such an entry toggles HEP1 (`0x02`) and its cyclic
predecessor toggles HEP2 (`0x08`); and the firing at the predecessor, which
toggles HEP2, installs the delay `(5 + s) * OFFSET` after which the next firing
toggles HEP1. -/
theorem C20_hep1_behind_hep2 (i : Nat) (hi : i < 20) :
    OFFSET = 20 ∧
    (List.range 20).filter (fun j => differences.getD j 0 = OFFSET) =
      [0, 2, 4, 6, 10, 12, 14, 16] ∧
    (differences.getD i 0 = OFFSET ↔ i ∈ [0, 2, 4, 6, 10, 12, 14, 16]) ∧
    (differences.getD i 0 = OFFSET →
      pin_to_toggle.getD i 0 = 0x02 ∧ pin_to_toggle.getD ((i + 19) % 20) 0 = 0x08 ∧
      (∀ (st : State) (s : Nat), s < 256 → st.hep_position = (i + 19) % 20 →
        st.adc_outputs.getD HEP_IDX 0 = s →
        (TIM1_COMPA_vect st).PINB = 1 <<< HEP2_OUT ∧
        (TIM1_COMPA_vect st).OCR1A = (5 + s) * OFFSET ∧
        (TIM1_COMPA_vect (TIM1_COMPA_vect st)).PINB = 1 <<< HEP1_OUT)) := by
  obtain ⟨hiff, himp⟩ := offset_entries i hi
  refine ⟨rfl, by decide, hiff, fun hd => ?_⟩
  obtain ⟨h1, h2⟩ := himp hd
  refine ⟨h1, h2, fun st s hs hpos hsamp => ?_⟩
  have hp : st.hep_position < 20 := by omega
  have hnext : (st.hep_position + 1) % 20 = i := by omega
  refine ⟨?_, ?_, ?_⟩
  · rw [tim1_PINB, hpos, h2]
  · rw [tim1_OCR1A st hp (by omega), hnext, hsamp, hd]
  · rw [tim1_PINB, tim1_hep_position st hp, hnext, h1]

/-- Witness of C20 at entry 0: the firing at position 19 toggles HEP2 and
installs `5 * 20`, and the following firing toggles HEP1. -/
theorem C20_hep1_behind_hep2_witness :
    (TIM1_COMPA_vect { main_init attiny84 with hep_position := 19 }).PINB = 0x08 ∧
    (TIM1_COMPA_vect { main_init attiny84 with hep_position := 19 }).OCR1A = 5 * 20 ∧
    (TIM1_COMPA_vect (TIM1_COMPA_vect
      { main_init attiny84 with hep_position := 19 })).PINB = 0x02 := by
  have h := ((C20_hep1_behind_hep2 0 (by decide)).2.2.2 (by decide)).2.2
    { main_init attiny84 with hep_position := 19 } 0 (by decide) rfl rfl
  exact ⟨h.1, h.2.1, h.2.2⟩

end HepTimer
